import Mathlib

/-!
Shallow embedding of `src/haveibeenpwned/mod.rs` from the `pwned-rs` crate.

Strings are modelled as `List Char`; for the ASCII data the corpus format
consists of, one `Char` is one byte, so list length coincides with byte
length.  Machine integers (`u64`) are modelled as `Nat` with an explicit
`< 2 ^ 64` bound where the Rust code's `parse::<u64>` enforces one.
Effectful calls (`std::fs::metadata`, `OpenOptions::open`,
`BufReader::read_line`) are modelled by passing their outcome in
explicitly, so every function here is a pure function of the outcomes the
operating system could produce.
-/

namespace PwnedRs

/-- ASCII fragment of Rust's `char::is_whitespace` (Unicode `White_Space`):
space (32) and the control characters 9..13.  The corpus data is ASCII, so
this matches `str::trim`'s character class on every input we consider. -/
def isRustWs (c : Char) : Bool :=
  c.toNat = 32 || (9 ≤ c.toNat && c.toNat ≤ 13)

/-- The decimal digits `'0'..'9'`, as accepted by Rust's `u64::from_str`. -/
def isDigitChar (c : Char) : Bool :=
  48 ≤ c.toNat && c.toNat ≤ 57

/-- ASCII fragment of Rust's `str::to_lowercase`: shift `'A'..'Z'` down by
32, leave everything else unchanged. -/
def lowerChar (c : Char) : Char :=
  if 65 ≤ c.toNat ∧ c.toNat ≤ 90 then Char.ofNat (c.toNat + 32) else c

/-- `str::to_lowercase` over the whole string. -/
def toLowerStr (s : List Char) : List Char :=
  s.map lowerChar

/-- Rust's `str::trim`: drop whitespace from both ends of the string. -/
def trim (s : List Char) : List Char :=
  ((s.dropWhile isRustWs).reverse.dropWhile isRustWs).reverse

/-- Rust's `str::split(':')` : the list of fields between the colons.  As in
Rust, splitting the empty string yields one empty field, so the result is
never the empty list of fields. -/
def splitColon : List Char → List (List Char)
  | [] => [[]]
  | c :: cs =>
    if c = ':' then [] :: splitColon cs
    else
      match splitColon cs with
      | [] => [[c]]
      | f :: fs => (c :: f) :: fs

/-- `u64::from_str` accepts one optional leading `'+'` sign; this strips it. -/
def stripPlus (s : List Char) : List Char :=
  match s with
  | c :: rest => if c = '+' then rest else s
  | [] => s

/-- The digit-accumulation loop of `u64::from_str`: left to right,
`acc * 10 + digit`, failing on the first non-digit character. -/
def parseDigitsAux : List Char → Nat → Option Nat
  | [], acc => some acc
  | c :: rest, acc =>
    if isDigitChar c then parseDigitsAux rest (acc * 10 + (c.toNat - 48)) else none

/-- Rust's `str::parse::<u64>()`: optional `'+'`, then a non-empty run of
decimal digits whose value fits in a `u64`.  Rust checks overflow at each
accumulation step; since appending further digits only grows the value,
that is equivalent to the single final `< 2 ^ 64` bound used here. -/
def parseU64 (s : List Char) : Option Nat :=
  match stripPlus s with
  | [] => none
  | c :: rest =>
    match parseDigitsAux (c :: rest) 0 with
    | none => none
    | some value => if value < 2 ^ 64 then some value else none

/-- `BufRead::read_line`: take bytes up to and including the first `'\n'`
(or up to the end of the stream), returning the line and the rest. -/
def readLine : List Char → List Char × List Char
  | [] => ([], [])
  | c :: rest =>
    if c = '\n' then ([c], rest)
    else
      let r := readLine rest
      (c :: r.1, r.2)

/-- `PasswordHashEntry` from the crate root: one parsed line. -/
structure PasswordHashEntry where
  hash : List Char
  occurrences : Nat
  entry_size : Nat
deriving DecidableEq, Repr

/-- The message of an underlying `std::io::Error`, as rendered by its
`Display` implementation. -/
structure IoError where
  message : List Char
deriving DecidableEq, Repr

/-- `FormatErrorKind` from `mod.rs`. -/
inductive FormatErrorKind where
  | NotATextFile
  | LineFormatNotCorrect
deriving DecidableEq, Repr

/-- `FormatErrorKind::to_string`. -/
def FormatErrorKind.to_string : FormatErrorKind → List Char
  | .NotATextFile => "not a text file which can be parsed".data
  | .LineFormatNotCorrect => "format of lines does not match the required format".data

/-- `CreateInstanceError` from `mod.rs`. -/
inductive CreateInstanceError where
  | Format (kind : FormatErrorKind)
  | Io (err : IoError)
deriving DecidableEq, Repr

/-- The `Display` implementation for `CreateInstanceError`. -/
def CreateInstanceError.display : CreateInstanceError → List Char
  | .Format err_kind => "Format error: ".data ++ err_kind.to_string
  | .Io err => "IO error: ".data ++ err.message

/-- `HaveIBeenPwnedParser`.  The `HashMap<String, u64>` is modelled as an
association list with unique keys looked up with `List.lookup`; the
`BufReader<File>` is modelled as the list of not-yet-consumed bytes. -/
structure HaveIBeenPwnedParser where
  known_password_hashes : Option (List (List Char × Nat))
  file_size : Nat
  password_file : Option (List Char)

/-- `HaveIBeenPwnedParser::from_file`, as a function of the outcomes of its
two effectful calls: `std::fs::metadata` (yielding the file's byte length)
and `OpenOptions::open` (yielding the file's contents, which the returned
`BufReader` will produce). -/
def from_file (stat_result : Except IoError Nat)
    (open_result : Except IoError (List Char)) :
    Except CreateInstanceError HaveIBeenPwnedParser :=
  match stat_result with
  | .error error => .error (.Io error)
  | .ok file_meta_len =>
    match open_result with
    | .error error => .error (.Io error)
    | .ok file_content =>
      .ok { known_password_hashes := none
            password_file := some file_content
            file_size := file_meta_len }

/-- `HaveIBeenPwnedParser::get_usage_count`.  The SHA-1 collaborator
(`crypto::sha1::Sha1`) is opaque to this module and is passed in as the
function `sha1_hex`. -/
def get_usage_count (sha1_hex : List Char → List Char)
    (self : HaveIBeenPwnedParser) (password : List Char) : Nat :=
  match self.known_password_hashes with
  | some hash_map =>
    let password_hash := sha1_hex password
    match hash_map.lookup password_hash with
    | some number => number
    | none => 0
  | none => 0

/-- `HaveIBeenPwnedParser::get_file_size`. -/
def get_file_size (self : HaveIBeenPwnedParser) : Option Nat :=
  if self.password_file.isSome then some self.file_size else none

/-- The outcome of the `read_line` call inside `next`: either a line
(possibly empty, when zero bytes were read at end of stream) or an I/O
error. -/
inductive ReadResult where
  | ok (line : List Char)
  | ioError (err : IoError)

/-- The body of `Iterator::next` after the reader has produced `entry_line`:
`line_length` is the number of bytes `read_line` appended, which equals the
line's length; then trim, split on `':'`, lowercase field 1, parse field 2
as `u64`. -/
def parseEntryLine (entry_line : List Char) : Option PasswordHashEntry :=
  match (splitColon (trim entry_line)).head? with
  | none => none
  | some key_text =>
    match (splitColon (trim entry_line))[1]? with
    | none => none
    | some value_text =>
      match parseU64 value_text with
      | none => none
      | some value_as_int =>
        some { hash := toLowerStr key_text
               occurrences := value_as_int
               entry_size := entry_line.length }

/-- `Iterator::next` as a function of the `read_line` outcome: an I/O error
is swallowed (`Err(_) => return None`); a successful read is parsed. -/
def next_of_read : ReadResult → Option PasswordHashEntry
  | .ioError _ => none
  | .ok entry_line => parseEntryLine entry_line

/-- `Iterator::next` on the deterministic (error-free) reader model: `None`
immediately when there is no file reader; otherwise read one line, advance
the reader past it, and parse the line. -/
def next (self : HaveIBeenPwnedParser) :
    Option PasswordHashEntry × HaveIBeenPwnedParser :=
  match self.password_file with
  | none => (none, self)
  | some content =>
    let r := readLine content
    (next_of_read (.ok r.1), { self with password_file := some r.2 })

/-- Fuel-indexed unfolding of the sequence of entries obtained by calling
`next` repeatedly on a reader holding `content`, stopping at the first
`None`.  Any fuel exceeding `content.length` gives the same result
(`entriesFromFuel_congr` below): each produced entry consumes at least one
byte, and on an empty reader the parse of the empty line yields no entry. -/
def entriesFromFuel : Nat → List Char → List PasswordHashEntry
  | 0, _ => []
  | fuel + 1, content =>
    match parseEntryLine (readLine content).1 with
    | none => []
    | some e => e :: entriesFromFuel fuel (readLine content).2

/-- The Entry Sequence produced from reader contents `content`: the entries
yielded by repeated `next` calls, up to the first `None`. -/
def entriesFrom (content : List Char) : List PasswordHashEntry :=
  entriesFromFuel (content.length + 1) content

/-- The Entry Sequence of a parser instance: what repeatedly calling `next`
yields before the first `None`. -/
def entrySeq (self : HaveIBeenPwnedParser) : List PasswordHashEntry :=
  match self.password_file with
  | none => []
  | some content => entriesFrom content

/-- A well-formed corpus line per the external-interface section of the
documentation: `hash-text ':' count '\n'`, where the hash text contains
neither `':'` nor a line terminator and the count is a non-empty run of
decimal digits denoting a `u64`-representable value (the `occurrences`
field is an unsigned 64-bit integer). -/
def WellFormedLine (l : List Char) : Prop :=
  ∃ h d, l = h ++ ':' :: (d ++ ['\n']) ∧
    (':' ∉ h ∧ '\n' ∉ h ∧ d ≠ [] ∧ (∀ c ∈ d, isDigitChar c) ∧
      d.foldl (fun acc c => acc * 10 + (c.toNat - 48)) 0 < 2 ^ 64)

/-! ### Character-level lemmas -/

theorem toNat_ofNat_valid (n : Nat) (h : n.isValidChar) : (Char.ofNat n).toNat = n := by
  simp [Char.ofNat, h, Char.ofNatAux, Char.toNat, UInt32.toNat, BitVec.toNat_ofNatLt]

theorem lowerChar_not_upper (c : Char) :
    (lowerChar c).toNat < 65 ∨ 90 < (lowerChar c).toNat := by
  unfold lowerChar
  by_cases h : 65 ≤ c.toNat ∧ c.toNat ≤ 90
  · rw [if_pos h, toNat_ofNat_valid]
    · omega
    · left; omega
  · rw [if_neg h]; omega

theorem toLowerStr_not_upper (s : List Char) :
    ∀ c ∈ toLowerStr s, c.toNat < 65 ∨ 90 < c.toNat := by
  intro c hc
  rcases List.mem_map.mp hc with ⟨a, _, rfl⟩
  exact lowerChar_not_upper a

theorem isRustWs_of_isDigitChar {c : Char} (h : isDigitChar c = true) :
    isRustWs c = false := by
  simp only [isDigitChar, Bool.and_eq_true, decide_eq_true_eq] at h
  simp only [isRustWs, Bool.or_eq_false_iff, Bool.and_eq_false_iff,
    decide_eq_false_iff_not]
  omega

theorem ne_colon_of_isDigitChar {c : Char} (h : isDigitChar c = true) : c ≠ ':' := by
  intro hc
  subst hc
  exact absurd h (by decide)

theorem ne_nl_of_isDigitChar {c : Char} (h : isDigitChar c = true) : c ≠ '\n' := by
  intro hc
  subst hc
  exact absurd h (by decide)

/-! ### `readLine` lemmas -/

theorem readLine_append_eq (body rest : List Char) (hb : '\n' ∉ body) :
    readLine (body ++ '\n' :: rest) = (body ++ ['\n'], rest) := by
  induction body with
  | nil => simp [readLine]
  | cons c cs ih =>
    have hc : c ≠ '\n' := fun h => hb (h ▸ List.mem_cons_self c cs)
    have hcs : '\n' ∉ cs := fun h => hb (List.mem_cons_of_mem c h)
    simp [readLine, hc, ih hcs]

theorem readLine_snd_length_lt (c : Char) (cs : List Char) :
    (readLine (c :: cs)).2.length < (c :: cs).length := by
  induction cs generalizing c with
  | nil => by_cases h : c = '\n' <;> simp [readLine, h]
  | cons b bs ih =>
    by_cases h : c = '\n'
    · simp [readLine, h]
    · simpa [readLine, h] using Nat.lt_succ_of_lt (ih b)

/-! ### `splitColon` lemmas -/

theorem splitColon_ne_nil (s : List Char) : splitColon s ≠ [] := by
  cases s with
  | nil => simp [splitColon]
  | cons c cs =>
    by_cases h : c = ':'
    · simp [splitColon, h]
    · cases hs : splitColon cs <;> simp [splitColon, h, hs]

theorem splitColon_no_colon (s : List Char) (h : ':' ∉ s) : splitColon s = [s] := by
  induction s with
  | nil => rfl
  | cons c cs ih =>
    have hc : c ≠ ':' := fun hcc => h (hcc ▸ List.mem_cons_self c cs)
    have hcs : ':' ∉ cs := fun hm => h (List.mem_cons_of_mem c hm)
    simp [splitColon, hc, ih hcs]

theorem splitColon_append (a b : List Char) (h : ':' ∉ a) :
    splitColon (a ++ ':' :: b) = a :: splitColon b := by
  induction a with
  | nil => simp [splitColon]
  | cons c cs ih =>
    have hc : c ≠ ':' := fun hcc => h (hcc ▸ List.mem_cons_self c cs)
    have hcs : ':' ∉ cs := fun hm => h (List.mem_cons_of_mem c hm)
    have hne := splitColon_ne_nil (cs ++ ':' :: b)
    cases hs : splitColon (cs ++ ':' :: b) with
    | nil => exact absurd hs hne
    | cons f fs =>
      rw [ih hcs] at hs
      cases hs
      simp [splitColon, hc, ih hcs]

/-! ### `parseU64` lemmas -/

theorem parseDigitsAux_digits (d : List Char) :
    ∀ acc : Nat, (∀ c ∈ d, isDigitChar c) →
      parseDigitsAux d acc =
        some (d.foldl (fun acc c => acc * 10 + (c.toNat - 48)) acc) := by
  induction d with
  | nil => intro acc _; rfl
  | cons c cs ih =>
    intro acc hdig
    have hc : isDigitChar c := hdig c (List.mem_cons_self c cs)
    have hcs : ∀ x ∈ cs, isDigitChar x := fun x hx => hdig x (List.mem_cons_of_mem c hx)
    simp [parseDigitsAux, hc, ih _ hcs]

theorem parseU64_digits (d : List Char) (hd : d ≠ [])
    (hdig : ∀ c ∈ d, isDigitChar c)
    (hbound : d.foldl (fun acc c => acc * 10 + (c.toNat - 48)) 0 < 2 ^ 64) :
    parseU64 d =
      some (d.foldl (fun acc c => acc * 10 + (c.toNat - 48)) 0) := by
  cases d with
  | nil => exact absurd rfl hd
  | cons c cs =>
    have hc : isDigitChar c := hdig c (List.mem_cons_self c cs)
    have hplus : c ≠ '+' := by
      intro h
      subst h
      exact absurd hc (by decide)
    simp only [parseU64, stripPlus, if_neg hplus]
    rw [parseDigitsAux_digits _ 0 hdig]
    simp only [List.foldl_cons, Nat.zero_mul, Nat.zero_add] at hbound
    simp [hbound]
    omega

/-! ### `trim` on a well-formed line -/

theorem dropWhile_ws_cons_colon (t : List Char) :
    List.dropWhile isRustWs (':' :: t) = ':' :: t := by
  rw [List.dropWhile_cons, if_neg (by decide)]

theorem dropWhile_ws_append_colon (h t : List Char) :
    List.dropWhile isRustWs (h ++ ':' :: t) =
      List.dropWhile isRustWs h ++ ':' :: t := by
  rw [List.dropWhile_append]
  cases hh : List.dropWhile isRustWs h with
  | nil => simp [dropWhile_ws_cons_colon]
  | cons f fs => simp

theorem trim_wf (h d : List Char) (hd : d ≠ [])
    (hdig : ∀ c ∈ d, isDigitChar c) :
    trim (h ++ ':' :: (d ++ ['\n'])) = List.dropWhile isRustWs h ++ ':' :: d := by
  unfold trim
  rw [dropWhile_ws_append_colon]
  obtain ⟨c, cs, hrev⟩ : ∃ c cs, d.reverse = c :: cs := by
    cases hr : d.reverse with
    | nil => exact absurd (List.reverse_eq_nil_iff.mp hr) hd
    | cons c cs => exact ⟨c, cs, rfl⟩
  have hcd : c ∈ d := List.mem_reverse.mp (hrev ▸ List.mem_cons_self c cs)
  have hws : isRustWs c = false := isRustWs_of_isDigitChar (hdig c hcd)
  have hstep : (List.dropWhile isRustWs h ++ ':' :: (d ++ ['\n'])).reverse =
      '\n' :: (d.reverse ++ ':' :: (List.dropWhile isRustWs h).reverse) := by
    simp
  rw [hstep, List.dropWhile_cons, if_pos (by decide), hrev, List.cons_append,
    List.dropWhile_cons, if_neg (by simp [hws])]
  have : (c :: (cs ++ ':' :: (List.dropWhile isRustWs h).reverse)).reverse =
      List.dropWhile isRustWs h ++ ':' :: (c :: cs).reverse := by
    simp
  rw [this, ← hrev, List.reverse_reverse]

/-! ### Parsing a well-formed line succeeds -/

theorem parseEntryLine_wf (h d : List Char) (hcolon : ':' ∉ h) (hd : d ≠ [])
    (hdig : ∀ c ∈ d, isDigitChar c)
    (hbound : d.foldl (fun acc c => acc * 10 + (c.toNat - 48)) 0 < 2 ^ 64) :
    parseEntryLine (h ++ ':' :: (d ++ ['\n'])) =
      some { hash := toLowerStr (List.dropWhile isRustWs h)
             occurrences := d.foldl (fun acc c => acc * 10 + (c.toNat - 48)) 0
             entry_size := (h ++ ':' :: (d ++ ['\n'])).length } := by
  have hcolon1 : ':' ∉ List.dropWhile isRustWs h :=
    fun hm => hcolon ((List.dropWhile_sublist isRustWs).subset hm)
  have hcolond : ':' ∉ d := fun hm => ne_colon_of_isDigitChar (hdig _ hm) rfl
  unfold parseEntryLine
  rw [trim_wf h d hd hdig, splitColon_append _ _ hcolon1, splitColon_no_colon _ hcolond]
  simp [parseU64_digits d hd hdig hbound]

/-! ### The Entry Sequence -/

theorem parseEntryLine_nil : parseEntryLine [] = none := by decide

theorem entriesFromFuel_congr :
    ∀ (f₁ f₂ : Nat) (c : List Char), c.length < f₁ → c.length < f₂ →
      entriesFromFuel f₁ c = entriesFromFuel f₂ c := by
  intro f₁
  induction f₁ with
  | zero => intro f₂ c h₁ _; exact absurd h₁ (Nat.not_lt_zero _)
  | succ f₁ ih =>
    intro f₂ c h₁ h₂
    cases f₂ with
    | zero => exact absurd h₂ (Nat.not_lt_zero _)
    | succ f₂ =>
      simp only [entriesFromFuel]
      cases hp : parseEntryLine (readLine c).1 with
      | none => rfl
      | some e =>
        cases c with
        | nil => rw [show (readLine []).1 = [] from rfl, parseEntryLine_nil] at hp; cases hp
        | cons a as =>
          have hlt := readLine_snd_length_lt a as
          simp only [List.length_cons] at hlt h₁ h₂
          rw [ih f₂ (readLine (a :: as)).2 (by omega) (by omega)]

theorem entriesFrom_eq (content : List Char) :
    entriesFrom content =
      match parseEntryLine (readLine content).1 with
      | none => []
      | some e => e :: entriesFrom (readLine content).2 := by
  cases content with
  | nil => decide
  | cons a as =>
    show entriesFromFuel ((a :: as).length + 1) (a :: as) = _
    conv_lhs => rw [entriesFromFuel]
    cases hp : parseEntryLine (readLine (a :: as)).1 with
    | none => rfl
    | some e =>
      have hlt := readLine_snd_length_lt a as
      rw [entriesFromFuel_congr ((a :: as).length) ((readLine (a :: as)).2.length + 1)
        (readLine (a :: as)).2 (by simp only [List.length_cons] at hlt ⊢; omega)
        (Nat.lt_succ_self _)]
      rfl

theorem entriesFrom_line (body rest : List Char) (hb : '\n' ∉ body) :
    entriesFrom (body ++ '\n' :: rest) =
      match parseEntryLine (body ++ ['\n']) with
      | none => []
      | some e => e :: entriesFrom rest := by
  rw [entriesFrom_eq, readLine_append_eq body rest hb]

/-- Repeatedly calling `next` agrees with `entrySeq`: the sequence is empty
when `next` yields nothing, and otherwise it is the yielded entry followed
by the sequence of the advanced parser.  This ties `entrySeq` to the
`Iterator` implementation's `next`. -/
theorem entrySeq_eq_next (p : HaveIBeenPwnedParser) :
    entrySeq p =
      match next p with
      | (none, _) => []
      | (some e, p2) => e :: entrySeq p2 := by
  cases hf : p.password_file with
  | none => simp [entrySeq, next, hf]
  | some content =>
    simp only [entrySeq, next, hf, next_of_read]
    rw [entriesFrom_eq content]
    cases hp : parseEntryLine (readLine content).1 with
    | none => rfl
    | some e => simp [entrySeq]

/-! ### Frame lemmas for `next` -/

theorem next_snd_known (p : HaveIBeenPwnedParser) :
    ((next p).2).known_password_hashes = p.known_password_hashes := by
  cases hf : p.password_file <;> simp [next, hf]

theorem next_get_file_size (p : HaveIBeenPwnedParser) :
    get_file_size ((next p).2) = get_file_size p := by
  cases hf : p.password_file <;> simp [next, get_file_size, hf]

theorem iterate_next_known (n : Nat) (p : HaveIBeenPwnedParser) :
    ((fun q => (next q).2)^[n] p).known_password_hashes = p.known_password_hashes := by
  induction n generalizing p with
  | zero => rfl
  | succ n ih =>
    rw [Function.iterate_succ_apply]
    rw [ih ((next p).2), next_snd_known]

theorem iterate_next_get_file_size (n : Nat) (p : HaveIBeenPwnedParser) :
    get_file_size ((fun q => (next q).2)^[n] p) = get_file_size p := by
  induction n generalizing p with
  | zero => rfl
  | succ n ih =>
    rw [Function.iterate_succ_apply]
    rw [ih ((next p).2), next_get_file_size]

/-! ### Claim theorems -/

/-- Claim C1: for every well-formed input file (every line of the form
`hash-text ':' count '\n'`), the Entry Sequence yields exactly one entry per
line, and the sum of the `entry_size` fields of the yielded entries equals
the file's total byte length. -/
theorem C1_one_entry_per_line_sizes_sum_to_file_length
    (p : HaveIBeenPwnedParser) (lines : List (List Char))
    (hfile : p.password_file = some lines.flatten)
    (hwf : ∀ l ∈ lines, WellFormedLine l) :
    (entrySeq p).length = lines.length ∧
      ((entrySeq p).map PasswordHashEntry.entry_size).sum = lines.flatten.length := by
  have key : ∀ ls : List (List Char), (∀ l ∈ ls, WellFormedLine l) →
      (entriesFrom ls.flatten).length = ls.length ∧
        ((entriesFrom ls.flatten).map PasswordHashEntry.entry_size).sum =
          ls.flatten.length := by
    intro ls
    induction ls with
    | nil => intro _; exact ⟨by decide, by decide⟩
    | cons l rest ih =>
      intro hwf2
      obtain ⟨h, d, rfl, hcolon, hnl, hdne, hdig, hbound⟩ :=
        hwf2 l (List.mem_cons_self l rest)
      have hbody : '\n' ∉ h ++ ':' :: d := by
        intro hm
        rcases List.mem_append.mp hm with hm1 | hm2
        · exact hnl hm1
        · rcases List.mem_cons.mp hm2 with hc | hd2
          · exact absurd hc (by decide)
          · exact ne_nl_of_isDigitChar (hdig _ hd2) rfl
      have hflat : ((h ++ ':' :: (d ++ ['\n'])) :: rest).flatten =
          (h ++ ':' :: d) ++ '\n' :: rest.flatten := by
        simp
      have hbody_nl : (h ++ ':' :: d) ++ ['\n'] = h ++ ':' :: (d ++ ['\n']) := by
        simp
      have hstep := entriesFrom_line (h ++ ':' :: d) rest.flatten hbody
      rw [hbody_nl, parseEntryLine_wf h d hcolon hdne hdig hbound] at hstep
      have hstep2 : entriesFrom ((h ++ ':' :: d) ++ '\n' :: rest.flatten) =
          { hash := toLowerStr (List.dropWhile isRustWs h)
            occurrences := d.foldl (fun acc c => acc * 10 + (c.toNat - 48)) 0
            entry_size := (h ++ ':' :: (d ++ ['\n'])).length :
              PasswordHashEntry } :: entriesFrom rest.flatten := hstep
      have hrest := ih (fun x hx => hwf2 x (List.mem_cons_of_mem _ hx))
      rw [hflat, hstep2]
      constructor
      · simp [hrest.1]
      · simp only [List.map_cons, List.sum_cons, hrest.2, List.length_append,
          List.length_cons, List.length_nil]
        omega
  rw [show entrySeq p = entriesFrom lines.flatten by simp [entrySeq, hfile]]
  exact key lines hwf

/-- Witness for C1 at the two-line file `"ab:5\nCD:10\n"`. -/
theorem C1_witness :
    (entrySeq ⟨none, 11, some (["ab:5\n".data, "CD:10\n".data].flatten)⟩).length = 2 ∧
      ((entrySeq ⟨none, 11, some (["ab:5\n".data, "CD:10\n".data].flatten)⟩).map
          PasswordHashEntry.entry_size).sum =
        (["ab:5\n".data, "CD:10\n".data].flatten).length :=
  C1_one_entry_per_line_sizes_sum_to_file_length
    ⟨none, 11, some (["ab:5\n".data, "CD:10\n".data].flatten)⟩
    ["ab:5\n".data, "CD:10\n".data] rfl
    (by
      intro l hl
      rcases List.mem_cons.mp hl with rfl | hl2
      · exact ⟨"ab".data, "5".data, by decide⟩
      rcases List.mem_cons.mp hl2 with rfl | hl3
      · exact ⟨"CD".data, "10".data, by decide⟩
      · cases hl3)

/-- Claim C2: `from_file` constructs the instance with `known_password_hashes`
set to `None`; no operation of the module ever populates it, so
`get_usage_count` returns `0` for every password on such an instance no
matter how many `next` calls have been made. -/
theorem C2_known_password_hashes_never_populated :
    (∀ (stat_result : Except IoError Nat) (open_result : Except IoError (List Char))
        (p : HaveIBeenPwnedParser), from_file stat_result open_result = .ok p →
        p.known_password_hashes = none) ∧
    (∀ p : HaveIBeenPwnedParser,
        ((next p).2).known_password_hashes = p.known_password_hashes) ∧
    (∀ p : HaveIBeenPwnedParser, p.known_password_hashes = none →
      ∀ (n : Nat) (sha1_hex : List Char → List Char) (password : List Char),
        get_usage_count sha1_hex ((fun q => (next q).2)^[n] p) password = 0) := by
  refine ⟨?_, next_snd_known, ?_⟩
  · intro s o p hok
    cases s with
    | error e => simp [from_file] at hok
    | ok len =>
      cases o with
      | error e => simp [from_file] at hok
      | ok content =>
        simp only [from_file, Except.ok.injEq] at hok
        rw [← hok]
  · intro p hnone n sha1_hex password
    have hn := iterate_next_known n p
    rw [hnone] at hn
    simp [get_usage_count, hn]

/-- Witness for C2: one `next` call on a freshly constructed instance,
then a query. -/
theorem C2_witness :
    get_usage_count (fun _ => []) ((fun q => (next q).2)^[1]
      ⟨none, 5, some ("ab:5\n".data)⟩) [] = 0 :=
  C2_known_password_hashes_never_populated.2.2
    ⟨none, 5, some ("ab:5\n".data)⟩ rfl 1 (fun _ => []) []

/-- Claim C4: `get_usage_count` with an index mapping present returns the count
stored under the key `sha1_hex password` when the mapping contains it and
`0` when it does not; with no mapping present it returns `0`.  The function
is total, so a query is never an error. -/
theorem C4_get_usage_count_is_lookup_or_zero :
    (∀ (sha1_hex : List Char → List Char) (p : HaveIBeenPwnedParser)
        (hash_map : List (List Char × Nat)) (password : List Char),
        p.known_password_hashes = some hash_map →
        get_usage_count sha1_hex p password =
          (hash_map.lookup (sha1_hex password)).getD 0) ∧
    (∀ (sha1_hex : List Char → List Char) (p : HaveIBeenPwnedParser)
        (password : List Char),
        p.known_password_hashes = none → get_usage_count sha1_hex p password = 0) := by
  constructor
  · intro sha1_hex p hash_map password hm
    simp only [get_usage_count, hm]
    cases hash_map.lookup (sha1_hex password) <;> simp
  · intro sha1_hex p password hm
    simp [get_usage_count, hm]

/-- Witness for C4: a populated mapping, one hit and one miss. -/
theorem C4_witness :
    get_usage_count (fun _ => "aa".data)
        ⟨some [("aa".data, 7)], 0, none⟩ ("pw".data) =
      (([("aa".data, 7)].lookup ((fun _ => "aa".data) "pw".data)).getD 0) :=
  C4_get_usage_count_is_lookup_or_zero.1 (fun _ => "aa".data)
    ⟨some [("aa".data, 7)], 0, none⟩ [("aa".data, 7)] ("pw".data) rfl

/-- Counterexample for C3: on the single-line file
`"5baa61e4c9b93f3f0682250b6cf8331b7ee68fd8:3700000\n"` the code does not
yield an entry with `entry_size = 43`: the line is 49 bytes long
(40-character hash, `':'`, 7 digits, `'\n'`) and `entry_size` is the number
of bytes `read_line` consumed. -/
theorem C3_counterexample :
    entrySeq ⟨none, 49,
        some ("5baa61e4c9b93f3f0682250b6cf8331b7ee68fd8:3700000\n".data)⟩ ≠
      [{ hash := "5baa61e4c9b93f3f0682250b6cf8331b7ee68fd8".data,
         occurrences := 3700000, entry_size := 43 }] := by
  decide

/-- Amended C3: the sequence over that file yields exactly one entry
with the stated hash and occurrence count, and `entry_size = 49` (the
line's actual byte length), not 43. -/
theorem C3_amended_single_line_scenario :
    entrySeq ⟨none, 49,
        some ("5baa61e4c9b93f3f0682250b6cf8331b7ee68fd8:3700000\n".data)⟩ =
      [{ hash := "5baa61e4c9b93f3f0682250b6cf8331b7ee68fd8".data,
         occurrences := 3700000, entry_size := 49 }] := by
  decide

/-- Claim C5: a pulled line whose trimmed text has no `':'`, or whose second
`':'`-delimited field is missing or not parseable as a non-negative `u64`,
terminates the Entry Sequence at that point: no entry is produced for that
line and no further items are yielded. -/
theorem C5_malformed_line_terminates_sequence
    (p : HaveIBeenPwnedParser) (content line rest : List Char)
    (hfile : p.password_file = some content)
    (hread : readLine content = (line, rest))
    (hbad : ':' ∉ trim line ∨
      ∃ v, (splitColon (trim line))[1]? = some v ∧ parseU64 v = none) :
    entrySeq p = [] := by
  have hparse : parseEntryLine line = none := by
    rcases hbad with hnc | ⟨v, hv, hpv⟩
    · unfold parseEntryLine
      rw [splitColon_no_colon _ hnc]
      rfl
    · unfold parseEntryLine
      cases hh : (splitColon (trim line)).head? with
      | none => simp [hh]
      | some k => simp [hh, hv, hpv]
  have : entrySeq p = entriesFrom content := by simp [entrySeq, hfile]
  rw [this, entriesFrom_eq, hread]
  simp [hparse]

/-- Witness for C5: the first line `"abc"` has no `':'`, so the sequence is
empty even though the rest of the file (`"def:5\n"`) is well formed. -/
theorem C5_witness :
    entrySeq ⟨none, 10, some ("abc\ndef:5\n".data)⟩ = [] :=
  C5_malformed_line_terminates_sequence ⟨none, 10, some ("abc\ndef:5\n".data)⟩
    ("abc\ndef:5\n".data) ("abc\n".data) ("def:5\n".data) rfl (by decide)
    (Or.inl (by decide))

/-- Modelled from the spec's words for comparison (claim C6): trim only
trailing whitespace/newline from the line. -/
def specTrimTrailing (s : List Char) : List Char :=
  (s.reverse.dropWhile isRustWs).reverse

/-- Modelled from the spec's words for comparison (claim C6): split the
text on the first `':'` into at most two fields. -/
def specSplitFirstColon (s : List Char) : List (List Char) :=
  if (s.dropWhile (fun c => !(c == ':'))).isEmpty then [s]
  else [s.takeWhile (fun c => !(c == ':')),
        (s.dropWhile (fun c => !(c == ':'))).tail]

/-- Counterexample for C6 at the line `" A:5:6\n"`: the code trims the leading
space as well (yielding hash `"a"`, not `" a"` as trailing-only trimming
would give) and splits on every `':'` taking the first two fields (yielding
occurrences `5`), whereas the claim's split-on-first-`':'` second field
`"5:6"` does not parse as an unsigned integer at all. -/
theorem C6_counterexample :
    entrySeq ⟨none, 7, some (" A:5:6\n".data)⟩ =
      [{ hash := ['a'], occurrences := 5, entry_size := 7 }] ∧
    toLowerStr ((specSplitFirstColon (specTrimTrailing (" A:5:6\n".data))).headD []) =
      [' ', 'a'] ∧
    (specSplitFirstColon (specTrimTrailing (" A:5:6\n".data)))[1]? =
      some ("5:6".data) ∧
    parseU64 ("5:6".data) = none ∧
    ([' ', 'a'] : List Char) ≠ ['a'] := by
  decide

/-- Amended C6: for every successfully parsed line, *leading and*
trailing whitespace is trimmed, the trimmed text is split on every `':'`
with the first field (lowercased) as the hash and the second field parsed
as an unsigned integer (later fields ignored), the yielded hash contains no
ASCII uppercase letter, and `entry_size` is the full pre-trim byte length
of the line including its terminator. -/
theorem C6_amended_field_derivation
    (entry_line : List Char) (e : PasswordHashEntry)
    (hp : parseEntryLine entry_line = some e) :
    (∃ k, (splitColon (trim entry_line)).head? = some k ∧ e.hash = toLowerStr k) ∧
    (∃ v, (splitColon (trim entry_line))[1]? = some v ∧
      parseU64 v = some e.occurrences) ∧
    e.entry_size = entry_line.length ∧
    (∀ c ∈ e.hash, c.toNat < 65 ∨ 90 < c.toNat) := by
  unfold parseEntryLine at hp
  cases hh : (splitColon (trim entry_line)).head? with
  | none => simp [hh] at hp
  | some k =>
    simp only [hh] at hp
    cases hv : (splitColon (trim entry_line))[1]? with
    | none => simp [hv] at hp
    | some v =>
      simp only [hv] at hp
      cases hu : parseU64 v with
      | none => simp [hu] at hp
      | some n =>
        simp only [hu, Option.some.injEq] at hp
        rw [← hp]
        exact ⟨⟨k, rfl, rfl⟩, ⟨v, rfl, by rw [hu]⟩, rfl, toLowerStr_not_upper k⟩

/-- Witness for C6 (amended) at the line `"AB:5\n"`. -/
theorem C6_witness :
    (∃ k, (splitColon (trim ("AB:5\n".data))).head? = some k ∧
      (['a', 'b'] : List Char) = toLowerStr k) ∧
    (∃ v, (splitColon (trim ("AB:5\n".data)))[1]? = some v ∧
      parseU64 v = some 5) ∧
    (5 : Nat) = ("AB:5\n".data).length ∧
    (∀ c ∈ (['a', 'b'] : List Char), c.toNat < 65 ∨ 90 < c.toNat) :=
  C6_amended_field_derivation ("AB:5\n".data)
    { hash := ['a', 'b'], occurrences := 5, entry_size := 5 } (by decide)

/-- Claim C7: when the stat or the open fails, `from_file` returns the `Io`
variant wrapping the underlying failure; it never returns the `Format`
variant; and the `Io` variant's display message starts with
`"IO error:"`. -/
theorem C7_from_file_io_error_only :
    (∀ (e : IoError) (open_result : Except IoError (List Char)),
        from_file (.error e) open_result = .error (.Io e)) ∧
    (∀ (n : Nat) (e : IoError),
        from_file (.ok n) (.error e) = .error (.Io e)) ∧
    (∀ (stat_result : Except IoError Nat) (open_result : Except IoError (List Char))
        (err : CreateInstanceError),
        from_file stat_result open_result = .error err → ∃ e, err = .Io e) ∧
    (∀ e : IoError, ((CreateInstanceError.Io e).display).take 9 = "IO error:".data) := by
  refine ⟨?_, ?_, ?_, ?_⟩
  · intro e o; rfl
  · intro n e; rfl
  · intro s o err hmatch
    cases s with
    | error e =>
      simp only [from_file, Except.error.injEq] at hmatch
      exact ⟨e, hmatch.symm⟩
    | ok len =>
      cases o with
      | error e =>
        simp only [from_file, Except.error.injEq] at hmatch
        exact ⟨e, hmatch.symm⟩
      | ok content => simp [from_file] at hmatch
  · intro e; rfl

/-- Witness for C7: a failed stat with a concrete error. -/
theorem C7_witness :
    ∃ e, CreateInstanceError.Io ⟨"file not found".data⟩ = .Io e :=
  C7_from_file_io_error_only.2.2.1 (.error ⟨"file not found".data⟩) (.ok [])
    (.Io ⟨"file not found".data⟩) rfl

/-- Claim C8: a pull that reads zero bytes (end of stream) yields no item, a pull
whose underlying read fails with an I/O error yields no item, and the two
outcomes are indistinguishable; on a parser whose reader is exhausted,
`next` yields nothing. -/
theorem C8_eof_and_read_error_end_sequence :
    next_of_read (.ok []) = none ∧
    (∀ e : IoError, next_of_read (.ioError e) = none) ∧
    (∀ e : IoError, next_of_read (.ioError e) = next_of_read (.ok [])) ∧
    (∀ p : HaveIBeenPwnedParser, p.password_file = some [] → (next p).1 = none) := by
  refine ⟨by decide, fun e => rfl, fun e => rfl, ?_⟩
  intro p hf
  simp only [next, hf]
  decide

/-- Witness for C8: an exhausted reader. -/
theorem C8_witness : (next ⟨none, 0, some []⟩).1 = none :=
  C8_eof_and_read_error_end_sequence.2.2.2 ⟨none, 0, some []⟩ rfl

/-- Claim C9: `get_file_size` returns `some` of the byte length captured at
construction, the value is unchanged by any number of `next` calls, and it
is `none` exactly when the instance holds no file reader. -/
theorem C9_get_file_size_stable :
    (∀ (stat_len : Nat) (content : List Char) (p : HaveIBeenPwnedParser),
        from_file (.ok stat_len) (.ok content) = .ok p →
        get_file_size p = some stat_len) ∧
    (∀ (p : HaveIBeenPwnedParser) (n : Nat),
        get_file_size ((fun q => (next q).2)^[n] p) = get_file_size p) ∧
    (∀ p : HaveIBeenPwnedParser, get_file_size p = none ↔ p.password_file = none) := by
  refine ⟨?_, ?_, ?_⟩
  · intro stat_len content p hok
    simp only [from_file, Except.ok.injEq] at hok
    rw [← hok]
    rfl
  · intro p n
    exact iterate_next_get_file_size n p
  · intro p
    cases hf : p.password_file <;> simp [get_file_size, hf]

/-- Witness for C9: construction with byte length 5, then two `next`
calls. -/
theorem C9_witness :
    get_file_size ⟨none, 5, some ("x".data)⟩ = some 5 :=
  C9_get_file_size_stable.1 5 ("x".data) ⟨none, 5, some ("x".data)⟩ rfl

/-- Claim C10: splitting a trimmed line on `':'` always yields at least one
(possibly empty) field, so the "field 1 missing" branch of `next` is
unreachable; a line whose trimmed text begins with `':'` and whose second
field parses yields an entry whose hash is the empty string. -/
theorem C10_empty_hash_yielded :
    (∀ s : List Char, splitColon s ≠ []) ∧
    (∀ (entry_line t : List Char) (n : Nat),
        trim entry_line = ':' :: t →
        parseU64 ((splitColon t).headD []) = some n →
        parseEntryLine entry_line =
          some { hash := [], occurrences := n, entry_size := entry_line.length }) := by
  constructor
  · exact splitColon_ne_nil
  · intro entry_line t n htrim hparse
    unfold parseEntryLine
    rw [htrim]
    have hsplit : splitColon (':' :: t) = [] :: splitColon t := by
      simp [splitColon]
    rw [hsplit]
    obtain ⟨f, fs, hf⟩ : ∃ f fs, splitColon t = f :: fs := by
      cases hs : splitColon t with
      | nil => exact absurd hs (splitColon_ne_nil t)
      | cons f fs => exact ⟨f, fs, rfl⟩
    rw [hf]
    rw [hf] at hparse
    simp only [List.headD_cons] at hparse
    simp [toLowerStr, hparse]

/-- Witness for C10 at the line `":5\n"`. -/
theorem C10_witness :
    parseEntryLine (":5\n".data) =
      some { hash := [], occurrences := 5, entry_size := 3 } :=
  C10_empty_hash_yielded.2 (":5\n".data) ['5'] 5 (by decide) (by decide)

end PwnedRs
